import Mathlib

/-!
Shallow embedding of `src/dbMap.ts`: a line-oriented rewriter that converts
MySQL table and field names in a Prisma schema to Prisma naming conventions,
adding `@@map` / `@map` mapping directives.

Strings are modelled as `List Char` (`Str`).  JavaScript string primitives
(`trim`, `trimEnd`, `includes`, `replace` with a string pattern, `===`
comparison, `toLowerCase`) and the concrete regular expressions of the source
are hand-rolled over `Str`, restricted to ASCII (all identifiers, schema text
and catalog names in this program are ASCII; JS `\w`, `\s` and
`toLowerCase` agree with the ASCII models below on such text).  Lines are
obtained by splitting on a newline, hence contain no newline character; the
walker is modelled directly on the list of lines.
-/

abbrev Str := List Char

/-- Conversion from Lean string literals to the `List Char` string model. -/
def lit (s : String) : Str := s.data

/-- ASCII model of JS whitespace (`\s`, `trim`): the characters that occur in
schema text. -/
def wsChar (c : Char) : Bool := c = ' ' || c = '\t' || c = '\r' || c = '\n'

/-- ASCII model of JS `\w`: letters, digits, underscore. -/
def wordChar (c : Char) : Bool := c.isAlphanum || c = '_'

/-- JS `String.prototype.toLowerCase` (ASCII fragment). -/
def lowerStr (s : Str) : Str := s.map Char.toLower

/-- JS `String.prototype.trimEnd` (dbMap.ts line 133). -/
def trimEndStr (s : Str) : Str := (s.reverse.dropWhile wsChar).reverse

/-- JS `String.prototype.trim`. -/
def trimStr (s : Str) : Str := (trimEndStr s).dropWhile wsChar

/-- JS `String.prototype.includes` for a needle (substring test). -/
def hasSub (n : Str) : Str → Bool
  | [] => n.isEmpty
  | c :: cs => n.isPrefixOf (c :: cs) || hasSub n cs

/-- JS `String.prototype.replace` with a *string* (or regex-escaped literal)
pattern: replaces the first occurrence of `n` (nonempty at every call site)
by `r`, or returns the string unchanged if `n` does not occur. -/
def replaceFirst (n r : Str) : Str → Str
  | [] => []
  | c :: cs => if n.isPrefixOf (c :: cs) then r ++ (c :: cs).drop n.length
               else c :: replaceFirst n r cs

/-- JS `Map.prototype.get` on an insertion-ordered association list. -/
def mapGet : List (Str × Str) → Str → Option Str
  | [], _ => none
  | (k, v) :: m, key => if k = key then some v else mapGet m key

/-- JS `Map.prototype.set` on an insertion-ordered association list:
overwrites in place, otherwise appends. -/
def mapSet : List (Str × Str) → Str → Str → List (Str × Str)
  | [], k, v => [(k, v)]
  | (k0, v0) :: m, k, v => if k0 = k then (k, v) :: m else (k0, v0) :: mapSet m k v

/-- Accumulator form of the segmentation: `acc` holds the reversed current
alphanumeric run. -/
def splitSegsAux : Str → Str → List Str
  | acc, [] => if acc.isEmpty then [] else [acc.reverse]
  | acc, c :: cs =>
    if c.isAlphanum then splitSegsAux (c :: acc) cs
    else if acc.isEmpty then splitSegsAux [] cs
    else acc.reverse :: splitSegsAux [] cs

/-- Modelled from the spec (§4.2): the `change-case` / `pluralize` libraries
are external collaborators, not part of `src/`.  Segmentation for case
conversion: split into maximal alphanumeric runs, discarding delimiters.
(Case-boundary splitting is omitted: every call site passes a
Classifier-flagged, fully lower-case identifier.) -/
def splitSegs (s : Str) : List Str := splitSegsAux [] s

/-- Capitalize one segment: upper-case its first character. -/
def capSeg : Str → Str
  | [] => []
  | c :: cs => c.toUpper :: cs

/-- Modelled from the spec (§4.2): `pascalCase` from `change-case` —
capitalize each segment and concatenate. -/
def pascalCase (s : Str) : Str := ((splitSegs s).map capSeg).flatten

/-- Modelled from the spec (§4.2): `camelCase` from `change-case` — first
segment lower-cased, subsequent segments capitalized, concatenated. -/
def camelCase (s : Str) : Str :=
  match splitSegs s with
  | [] => []
  | w :: ws => lowerStr w ++ (ws.map capSeg).flatten

/-- Modelled from the spec (§4.2): `singular` from `pluralize` — strip
common plural suffixes: trailing "ies" becomes "y", a trailing "s" is
dropped (with the standard "ss" exception). -/
def singular (s : Str) : Str :=
  if (lit "ies").isSuffixOf s then s.take (s.length - 3) ++ [ 'y' ]
  else if (lit "ss").isSuffixOf s then s
  else if [ 's' ].isSuffixOf s then s.take (s.length - 1)
  else s

/-- dbMap.ts lines 20-22: an identifier needs transformation iff it equals
its own lower-cased form. -/
def shouldTransform (s : Str) : Bool := s = lowerStr s

/-- dbMap.ts lines 25-30: singularize, then PascalCase. -/
def transformTableName (s : Str) : Str := pascalCase (singular s)

/-- The character class `[^)]` of the regexes of dbMap.ts lines 39 and 48. -/
def nonRP (c : Char) : Bool := c ≠ ')'

/-- The regex `/^model\s+(\w+)\s+\x7b/` of dbMap.ts line 138, applied to the
trimmed line: literal `model`, one or more whitespace, a captured word run,
one or more whitespace, an opening brace; trailing content unconstrained. -/
def modelHeaderMatch (s : Str) : Option Str :=
  match s with
  | 'm' :: 'o' :: 'd' :: 'e' :: 'l' :: rest =>
    let ws1 := rest.takeWhile wsChar
    let r1 := rest.dropWhile wsChar
    let id := r1.takeWhile wordChar
    let r2 := r1.dropWhile wordChar
    let ws2 := r2.takeWhile wsChar
    let r3 := r2.dropWhile wsChar
    if ws1.isEmpty || id.isEmpty || ws2.isEmpty then none
    else match r3 with
         | '{' :: _ => some id
         | _ => none
  | _ => none

/-- The single-quote character, used by the map-name extraction regex. -/
def squote : Char := Char.ofNat 39

/-- One attempt of the regex `/@map\s*\(\s*["м]([^"м]+)["м]\s*\)/` (where м
stands for a single quote) of dbMap.ts line 149, anchored at the start of
`s`.  The quoted content is a maximal nonempty run of non-quote characters;
either quote may close either quote. -/
def mapNameAt (s : Str) : Option Str :=
  match s with
  | '@' :: 'm' :: 'a' :: 'p' :: r0 =>
    match r0.dropWhile wsChar with
    | '(' :: r2 =>
      match r2.dropWhile wsChar with
      | q :: r4 =>
        if q = '"' || q = squote then
          let content := r4.takeWhile (fun c => c ≠ '"' && c ≠ squote)
          let r5 := r4.dropWhile (fun c => c ≠ '"' && c ≠ squote)
          if content.isEmpty then none
          else match r5 with
               | _ :: r6 =>
                 match r6.dropWhile wsChar with
                 | ')' :: _ => some content
                 | _ => none
               | [] => none
        else none
      | [] => none
    | _ => none
  | _ => none

/-- Unanchored, leftmost-first search with the regex of `mapNameAt`
(dbMap.ts line 149, `lines[j].match(...)`). -/
def extractMapName : Str → Option Str
  | [] => none
  | c :: cs =>
    match mapNameAt (c :: cs) with
    | some r => some r
    | none => extractMapName cs

/-- dbMap.ts line 210: `/^@@(index|unique|id|fulltext)/` on the trimmed
line. -/
def isDirectiveLine (s : Str) : Bool :=
  (lit "@@index").isPrefixOf s || (lit "@@unique").isPrefixOf s ||
  (lit "@@id").isPrefixOf s || (lit "@@fulltext").isPrefixOf s

/-- One attempt, anchored at the start of `s`, of the regex
`/@@(?:index|unique|id|fulltext)\s*\(\s*\[(.*?)\]/` of dbMap.ts line 39:
alternatives tried in order, then optional whitespace, `(`, optional
whitespace, `[`, and a lazy capture up to the first `]`. -/
def directiveAt (s : Str) : Option Str :=
  match s with
  | '@' :: '@' :: r =>
    let tryKw : Str → Option Str := fun kw =>
      if kw.isPrefixOf r then
        match (r.drop kw.length).dropWhile wsChar with
        | '(' :: r2 =>
          match r2.dropWhile wsChar with
          | '[' :: r4 =>
            if r4.contains ']' then some (r4.takeWhile (fun c => c ≠ ']'))
            else none
          | _ => none
        | _ => none
      else none
    ((tryKw (lit "index")).orElse fun _ => (tryKw (lit "unique")).orElse fun _ =>
      (tryKw (lit "id")).orElse fun _ => tryKw (lit "fulltext"))
  | _ => none

/-- Unanchored, leftmost-first search with the regex of `directiveAt`
(dbMap.ts line 39, `line.match(...)`). -/
def findDirective : Str → Option Str
  | [] => none
  | c :: cs =>
    match directiveAt (c :: cs) with
    | some r => some r
    | none => findDirective cs

/-- Fuel-indexed form of the exec loop over `/(\w+)(\([^)]*\))?/g` of
dbMap.ts lines 48-52.  Every step consumes at least one character, so fuel
equal to the string length (as supplied by `tokenize`) never runs out. -/
def tokenizeF : Nat → Str → List (Str × Str)
  | 0, _ => []
  | _ + 1, [] => []
  | fuel + 1, c :: cs =>
    if wordChar c then
      let w := c :: cs.takeWhile wordChar
      match cs.dropWhile wordChar with
      | '(' :: ps =>
        if ps.contains ')' then
          (w, '(' :: ps.takeWhile nonRP ++ [ ')' ]) ::
            tokenizeF fuel ((ps.dropWhile nonRP).drop 1)
        else (w, []) :: tokenizeF fuel ('(' :: ps)
      | r => (w, []) :: tokenizeF fuel r
    else tokenizeF fuel cs

/-- The global exec loop over `/(\w+)(\([^)]*\))?/g` of dbMap.ts lines
48-52: the scanned tokens of the bracketed field list, each a word run with
an optional verbatim parenthesized parameter suffix (the optional group
fails, contributing an empty suffix, when no closing parenthesis follows). -/
def tokenize (s : Str) : List (Str × Str) := tokenizeF s.length s

/-- dbMap.ts lines 33-74, `transformDirectiveFields`: locate the bracketed
list of a structural directive; for each scanned token whose identifier the
Classifier flags, substitute `mapped ++ suffix` for the **first occurrence**
of the token text in the working list string; finally substitute the
rewritten list for the first occurrence of the original bracketed span in
the line. -/
def transformDirectiveFields (line : Str) (columnMap : List (Str × Str))
    (currentTable : Str) : Str :=
  match findDirective line with
  | none => line
  | some fieldsStr =>
    let transformed := (tokenize fieldsStr).foldl
      (fun acc tk =>
        if shouldTransform tk.1 then
          replaceFirst (tk.1 ++ tk.2)
            (((mapGet columnMap (currentTable ++ '.' :: tk.1)).getD (camelCase tk.1)) ++ tk.2)
            acc
        else acc)
      fieldsStr
    replaceFirst ('[' :: fieldsStr ++ [ ']' ]) ('[' :: transformed ++ [ ']' ]) line

/-- dbMap.ts line 219: `/^(\w+)\s+(.+)/` on the trimmed line — leading word
run, a whitespace run, and the (greedy) remainder; with the regex
backtracking step when the remainder after the maximal whitespace run is
empty. -/
def fieldLineMatch (s : Str) : Option (Str × Str) :=
  let f := s.takeWhile wordChar
  let r1 := s.dropWhile wordChar
  let ws := r1.takeWhile wsChar
  let r2 := r1.dropWhile wsChar
  if f.isEmpty || ws.isEmpty then none
  else if r2.isEmpty then
    if ws.length ≥ 2 then some (f, ws.drop (ws.length - 1)) else none
  else some (f, r2)

/-- dbMap.ts lines 234-237: `line.replace(regex of ^(\s*)f\s+, indent ++
mapped ++ one space)` — the leading whitespace is kept, the identifier is
replaced, and the whitespace run separating identifier from the rest is
collapsed to a single space; an unmatched line is returned unchanged. -/
def renameField (line f mapped : Str) : Str :=
  let indent := line.takeWhile wsChar
  let r := line.dropWhile wsChar
  if f.isPrefixOf r then
    let r2 := r.drop f.length
    if (r2.takeWhile wsChar).isEmpty then line
    else indent ++ mapped ++ ' ' :: r2.dropWhile wsChar
  else line

/-- Parse Cursor State of the Schema Block Walker (dbMap.ts lines
127-129). -/
structure WalkSt where
  model : Option Str
  table : Option Str
  inBlock : Bool
deriving Repr, DecidableEq

def initSt : WalkSt := ⟨none, none, false⟩

/-- JS truthiness of a nullable string: non-null and nonempty. -/
def optTruthy : Option Str → Bool
  | some s => !s.isEmpty
  | none => false

/-- dbMap.ts lines 145-155 loop bound and search: the block lookahead
region is the run of following lines whose trimmed form does not start with
a closing brace; the first line of it containing `@@map(` is returned. -/
def blockMapLine (rest : List Str) : Option Str :=
  (rest.takeWhile (fun l => !(([ '}' ] : Str).isPrefixOf (trimStr l)))).find?
    (fun l => hasSub (lit "@@map(") l)

/-- dbMap.ts lines 162-179: the `for (const [tableName, transformedName] of
tableMap.entries())` loop.  Returns the matched raw table name together with
the rewritten header line.  (The `currentModel &&` guard of line 169 is
always true there: the model name is a nonempty regex capture.) -/
def findTableMatch (name : Str) : List (Str × Str) → Option (Str × Str)
  | [] => none
  | (tn, tv) :: m =>
    if tv = name then some (tn, lit "model " ++ tv ++ lit " \x7b")
    else if tn = lowerStr name || transformTableName tn = name then
      some (tn, lit "model " ++ transformTableName tn ++ lit " \x7b")
    else findTableMatch name m

/-- dbMap.ts lines 189-195: the synthesized table-mapping line, emitted when
the block has no explicit mapping, the current table is truthy, and the
transformed table name differs from the raw one. -/
def tableAnn (tn : Str) : List Str :=
  if !tn.isEmpty && transformTableName tn ≠ tn then
    [lit "  @@map(\"" ++ tn ++ lit "\")"]
  else []

/-- dbMap.ts lines 138-197: processing of a model-header line (`line` is the
trimEnd-ed text, `rest` the following raw lines). -/
def headerStep (tmap : List (Str × Str)) (st : WalkSt) (name : Str)
    (line : Str) (rest : List Str) : WalkSt × List Str :=
  match blockMapLine rest with
  | some l =>
    let table' := match extractMapName l with
                  | some r => some r
                  | none => st.table
    (⟨some name, table', true⟩, [line])
  | none =>
    match findTableMatch name tmap with
    | some (tn, hdr) => (⟨some name, some tn, true⟩, hdr :: tableAnn tn)
    | none =>
      let t := lowerStr name
      (⟨some name, some t, true⟩, line :: tableAnn t)

/-- dbMap.ts lines 216-244: processing of a potential field-declaration
line while inside a block with model and table both truthy. -/
def fieldStep (cmap : List (Str × Str)) (tbl : Str) (line trimmed : Str) : Str :=
  match fieldLineMatch trimmed with
  | some (f, r) =>
    if !(lit "//").isPrefixOf trimmed && !trimmed.isEmpty then
      if !hasSub (lit "@map(") r && shouldTransform f then
        let cf := camelCase f
        if cf ≠ f then
          let mapped := (mapGet cmap (tbl ++ '.' :: f)).getD cf
          renameField line f mapped ++ lit " @map(\"" ++ f ++ lit "\")"
        else line
      else line
    else line
  | none => line

/-- dbMap.ts lines 132-247: processing of one line of the schema, given the
following raw lines `rest` (used by the block lookahead). -/
def step (tmap cmap : List (Str × Str)) (st : WalkSt) (rawLine : Str)
    (rest : List Str) : WalkSt × List Str :=
  let line := trimEndStr rawLine
  let trimmed := trimStr rawLine
  match modelHeaderMatch trimmed with
  | some name => headerStep tmap st name line rest
  | none =>
    if st.inBlock && trimmed = [ '}' ] then (⟨none, none, false⟩, [line])
    else if st.inBlock && optTruthy st.table && isDirectiveLine trimmed then
      (st, [transformDirectiveFields line cmap (st.table.getD [])])
    else if st.inBlock && optTruthy st.model && optTruthy st.table then
      (st, [fieldStep cmap (st.table.getD []) line trimmed])
    else (st, [line])

/-- The walker loop of dbMap.ts lines 132-247: thread the Parse Cursor
State through the lines, collecting the emitted lines. -/
def runLines (tmap cmap : List (Str × Str)) : WalkSt → List Str → WalkSt × List Str
  | st, [] => (st, [])
  | st, l :: ls =>
    let p := step tmap cmap st l ls
    let q := runLines tmap cmap p.1 ls
    (q.1, p.2 ++ q.2)

/-- The whole transformation of dbMap.ts lines 124-250, on the list of
schema lines. -/
def convertLines (tmap cmap : List (Str × Str)) (lines : List Str) : List Str :=
  (runLines tmap cmap initSt lines).2

/-- dbMap.ts lines 107-112: the table catalog mapping builder. -/
def buildTableMap (tables : List Str) : List (Str × Str) :=
  tables.foldl
    (fun m t => if shouldTransform t then mapSet m t (transformTableName t) else m) []

/-- dbMap.ts lines 115-121: the column catalog mapping builder (catalog
entries are `(tableRawName, columnRawName)` pairs). -/
def buildColumnMap (cols : List (Str × Str)) : List (Str × Str) :=
  cols.foldl
    (fun m c =>
      if shouldTransform c.2 then mapSet m (c.1 ++ '.' :: c.2) (camelCase c.2) else m)
    []

/-- The three per-entry match criteria of the header-resolution loop
(dbMap.ts lines 163 and 170-171), as one boolean: transformed value equal to
the model name, raw name equal to the lower-cased model name, or transformed
raw name equal to the model name. -/
def matchCrit (name : Str) (e : Str × Str) : Bool :=
  e.2 = name || e.1 = lowerStr name || transformTableName e.1 = name

/-- The Parse Cursor State invariant of the spec (§3): model and table are
both non-null iff the walker is inside a block (and both are null
outside). -/
def StInv (st : WalkSt) : Prop :=
  (st.inBlock = true ∧ st.model.isSome ∧ st.table.isSome) ∨
  (st.inBlock = false ∧ st.model = none ∧ st.table = none)

/-- A line is benign for the invariant when, if it contains the `@@map(`
marker, the quoted-name extraction regex also succeeds on it. -/
def goodLine (l : Str) : Prop :=
  hasSub (lit "@@map(") l = true → (extractMapName l).isSome = true

instance (l : Str) : Decidable (goodLine l) := by
  unfold goodLine
  infer_instance

/-! Helper lemmas about the character classes and scanning primitives. -/

theorem wsChar_cases {c : Char} (h : wsChar c = true) :
    c = ' ' ∨ c = '\t' ∨ c = '\r' ∨ c = '\n' := by
  have h2 := h
  simp only [wsChar, Bool.or_eq_true, decide_eq_true_eq] at h2
  tauto

theorem ws_not_word {c : Char} (h : wsChar c = true) : wordChar c = false := by
  rcases wsChar_cases h with h1 | h1 | h1 | h1 <;> subst h1 <;> decide

theorem word_not_ws {c : Char} (h : wordChar c = true) : wsChar c = false := by
  cases hw : wsChar c with
  | false => rfl
  | true => exact absurd h (by simp [ws_not_word hw])

theorem takeWhile_stop {p : Char → Bool} {ys : Str}
    (h : ∀ d, ys.head? = some d → p d = false) : ys.takeWhile p = [] := by
  cases ys with
  | nil => rfl
  | cons d t => simp [List.takeWhile, h d rfl]

theorem dropWhile_stop {p : Char → Bool} {ys : Str}
    (h : ∀ d, ys.head? = some d → p d = false) : ys.dropWhile p = ys := by
  cases ys with
  | nil => rfl
  | cons d t => simp [List.dropWhile, h d rfl]

theorem takeWhile_append_all {p : Char → Bool} {xs ys : Str}
    (hxs : xs.all p = true) (h : ∀ d, ys.head? = some d → p d = false) :
    (xs ++ ys).takeWhile p = xs := by
  induction xs with
  | nil => simpa using takeWhile_stop h
  | cons x xt ih =>
    simp only [List.all_cons, Bool.and_eq_true] at hxs
    simp [List.takeWhile, hxs.1, ih hxs.2]

theorem dropWhile_append_all {p : Char → Bool} {xs ys : Str}
    (hxs : xs.all p = true) (h : ∀ d, ys.head? = some d → p d = false) :
    (xs ++ ys).dropWhile p = ys := by
  induction xs with
  | nil => simpa using dropWhile_stop h
  | cons x xt ih =>
    simp only [List.all_cons, Bool.and_eq_true] at hxs
    simp [List.dropWhile, hxs.1, ih hxs.2]

theorem trimEnd_keep {xs r0 : Str} {c : Char} (hc : wsChar c = false) :
    trimEndStr (xs ++ (r0 ++ [c])) = xs ++ (r0 ++ [c]) := by
  have : (xs ++ (r0 ++ [c])).reverse = c :: (r0.reverse ++ xs.reverse) := by simp
  rw [trimEndStr, this]
  simp [List.dropWhile, hc]

theorem isPrefixOf_self_append (f t : Str) : f.isPrefixOf (f ++ t) = true := by
  induction f with
  | nil => simp [List.isPrefixOf]
  | cons a as ih => simp [List.isPrefixOf, ih]

theorem fieldLineMatch_decomp {f ws r : Str}
    (hf : f ≠ []) (hfw : f.all wordChar = true)
    (hws : ws ≠ []) (hwsw : ws.all wsChar = true)
    (hr : r ≠ []) (hrh : ∀ d, r.head? = some d → wsChar d = false) :
    fieldLineMatch (f ++ (ws ++ r)) = some (f, r) := by
  obtain ⟨w, ws', rfl⟩ := List.exists_cons_of_ne_nil hws
  have hw : wsChar w = true := by
    simp only [List.all_cons, Bool.and_eq_true] at hwsw
    exact hwsw.1
  have h1 : (f ++ ((w :: ws') ++ r)).takeWhile wordChar = f :=
    takeWhile_append_all hfw (by intro d hd; simp at hd; rw [← hd]; exact ws_not_word hw)
  have h2 : (f ++ ((w :: ws') ++ r)).dropWhile wordChar = (w :: ws') ++ r :=
    dropWhile_append_all hfw (by intro d hd; simp at hd; rw [← hd]; exact ws_not_word hw)
  have h3 : ((w :: ws') ++ r).takeWhile wsChar = w :: ws' :=
    takeWhile_append_all hwsw (by
      intro d hd
      obtain ⟨rh, rt, rfl⟩ := List.exists_cons_of_ne_nil hr
      simp at hd
      rw [← hd]
      exact hrh rh rfl)
  have h4 : ((w :: ws') ++ r).dropWhile wsChar = r :=
    dropWhile_append_all hwsw (by
      intro d hd
      obtain ⟨rh, rt, rfl⟩ := List.exists_cons_of_ne_nil hr
      simp at hd
      rw [← hd]
      exact hrh rh rfl)
  simp only [fieldLineMatch, h1, h2, h3, h4]
  simp [hf, hr]


theorem trimEnd_keep_snoc {xs : Str} {c : Char} (hc : wsChar c = false) :
    trimEndStr (xs ++ [c]) = xs ++ [c] := by
  rw [trimEndStr, List.reverse_append]
  simp [List.dropWhile, hc]

theorem step_outside (tmap cmap : List (Str × Str)) (st : WalkSt) (l : Str)
    (rest : List Str) (hb : st.inBlock = false)
    (hh : modelHeaderMatch (trimStr l) = none) :
    step tmap cmap st l rest = (st, [trimEndStr l]) := by
  simp only [step]
  rw [hh]
  simp [hb]

theorem step_inblock_directive (tmap cmap : List (Str × Str)) (m tbl l : Str)
    (rest : List Str) (ht : tbl ≠ [])
    (hh : modelHeaderMatch (trimStr l) = none)
    (hc : trimStr l ≠ [ '}' ])
    (hd : isDirectiveLine (trimStr l) = true) :
    step tmap cmap ⟨some m, some tbl, true⟩ l rest
      = (⟨some m, some tbl, true⟩, [transformDirectiveFields (trimEndStr l) cmap tbl]) := by
  simp only [step]
  rw [hh]
  simp [hc, hd, optTruthy, ht]

theorem step_inblock_field (tmap cmap : List (Str × Str)) (m tbl l : Str)
    (rest : List Str) (hm : m ≠ []) (ht : tbl ≠ [])
    (hh : modelHeaderMatch (trimStr l) = none)
    (hc : trimStr l ≠ [ '}' ])
    (hd : isDirectiveLine (trimStr l) = false) :
    step tmap cmap ⟨some m, some tbl, true⟩ l rest
      = (⟨some m, some tbl, true⟩, [fieldStep cmap tbl (trimEndStr l) (trimStr l)]) := by
  simp only [step]
  rw [hh]
  simp [hc, hd, optTruthy, hm, ht]

theorem fieldStep_rename {cmap : List (Str × Str)} {tbl line trimmed f r : Str}
    (hm : fieldLineMatch trimmed = some (f, r))
    (hslash : (lit "//").isPrefixOf trimmed = false)
    (hne : trimmed ≠ [])
    (hnomap : hasSub (lit "@map(") r = false)
    (hst : shouldTransform f = true)
    (hcf : camelCase f ≠ f) :
    fieldStep cmap tbl line trimmed
      = renameField line f ((mapGet cmap (tbl ++ '.' :: f)).getD (camelCase f)) ++
          lit " @map(\"" ++ f ++ lit "\")" := by
  simp [fieldStep, hm, hslash, hne, hnomap, hst, hcf]

theorem fieldStep_hasMap {cmap : List (Str × Str)} {tbl line trimmed f r : Str}
    (hm : fieldLineMatch trimmed = some (f, r))
    (hmap : hasSub (lit "@map(") r = true) :
    fieldStep cmap tbl line trimmed = line := by
  simp [fieldStep, hm, hmap]

theorem fieldStep_noTransform {cmap : List (Str × Str)} {tbl line trimmed f r : Str}
    (hm : fieldLineMatch trimmed = some (f, r))
    (hst : shouldTransform f = false) :
    fieldStep cmap tbl line trimmed = line := by
  simp [fieldStep, hm, hst]

theorem renameField_decomp {indent f ws r mapped : Str}
    (hi : indent.all wsChar = true)
    (hf : f ≠ []) (hfw : f.all wordChar = true)
    (hws : ws ≠ []) (hwsw : ws.all wsChar = true)
    (hr : r ≠ []) (hrh : ∀ d, r.head? = some d → wsChar d = false) :
    renameField (indent ++ (f ++ (ws ++ r))) f mapped
      = indent ++ mapped ++ ' ' :: r := by
  obtain ⟨fc, ft, rfl⟩ := List.exists_cons_of_ne_nil hf
  have hfcw : wordChar fc = true := by
    simp only [List.all_cons, Bool.and_eq_true] at hfw
    exact hfw.1
  have hstop : ∀ d, ((fc :: ft) ++ (ws ++ r)).head? = some d → wsChar d = false := by
    intro d hd
    simp at hd
    rw [← hd]
    exact word_not_ws hfcw
  have h1 : (indent ++ ((fc :: ft) ++ (ws ++ r))).takeWhile wsChar = indent :=
    takeWhile_append_all hi hstop
  have h2 : (indent ++ ((fc :: ft) ++ (ws ++ r))).dropWhile wsChar = (fc :: ft) ++ (ws ++ r) :=
    dropWhile_append_all hi hstop
  have h3 : (fc :: ft).isPrefixOf ((fc :: ft) ++ (ws ++ r)) = true :=
    isPrefixOf_self_append _ _
  have h4 : ((fc :: ft) ++ (ws ++ r)).drop (fc :: ft).length = ws ++ r := by
    simp [List.drop_left]
  obtain ⟨w, ws', rfl⟩ := List.exists_cons_of_ne_nil hws
  have hrstop : ∀ d, r.head? = some d → wsChar d = false := hrh
  have h5 : ((w :: ws') ++ r).takeWhile wsChar = w :: ws' :=
    takeWhile_append_all hwsw (by
      intro d hd
      obtain ⟨rh, rt, rfl⟩ := List.exists_cons_of_ne_nil hr
      simp at hd
      rw [← hd]
      exact hrstop rh rfl)
  have h6 : ((w :: ws') ++ r).dropWhile wsChar = r :=
    dropWhile_append_all hwsw (by
      intro d hd
      obtain ⟨rh, rt, rfl⟩ := List.exists_cons_of_ne_nil hr
      simp at hd
      rw [← hd]
      exact hrstop rh rfl)
  simp only [renameField, h1, h2, h3, h4, h5, h6]
  simp

/-- C1: on the three-line schema for raw table `order_items` with column
`user_id`, the transformation rewrites the header to the transformed model
name `OrderItem`, synthesizes `@@map("order_items")` right after the header,
and renames the field to `userId` with `@map("user_id")` appended. -/
theorem C1_end_to_end :
    convertLines (buildTableMap [lit "order_items"])
      (buildColumnMap [(lit "order_items", lit "user_id")])
      [lit "model order_items \x7b", lit "  user_id Int", lit "\x7d"] =
    [lit "model OrderItem \x7b", lit "  @@map(\"order_items\")",
     lit "  userId Int @map(\"user_id\")", lit "\x7d"] := by decide

/-- C2: evaluating the directive rewriter at the failing input of the claim:
in the list `[a_bMixed, a_b]` the substitution for the flagged token `a_b`
lands on the first textual occurrence of `a_b`, which lies inside the
unrelated token `a_bMixed`; the code emits `[aBMixed, a_b]` instead of the
claimed `[a_bMixed, aB]`. -/
theorem C2_directive_replace_first_occurrence :
    transformDirectiveFields (lit "  @@index([a_bMixed, a_b])") [] (lit "t")
      = lit "  @@index([aBMixed, a_b])" ∧
    transformDirectiveFields (lit "  @@index([a_bMixed, a_b])") [] (lit "t")
      ≠ lit "  @@index([a_bMixed, aB])" := by decide

/-- C5: the concrete example of the claim holds (`field_name(sort: Desc)`
becomes `fieldName(sort: Desc)`), but the universal "parameter text is never
altered" fails: rewriting token `x_y` in `[ab(x_y), x_y]` alters the
parameter suffix of the earlier token `ab(x_y)` to `(xY)` because the
substitution targets the first occurrence of `x_y` in the list. -/
theorem C5_parameter_suffix_altered :
    transformDirectiveFields (lit "  @@index([field_name(sort: Desc)])") [] (lit "t")
      = lit "  @@index([fieldName(sort: Desc)])" ∧
    transformDirectiveFields (lit "  @@index([ab(x_y), x_y])") [] (lit "t")
      = lit "  @@index([ab(xY), x_y])" := by decide

/-- C7: the transformation is not idempotent.  With catalog table `t` and
column `(t, a_b)`, the first pass rewrites the first occurrence of `a_b`
inside the unrelated directive token `a_bMixed` and leaves the token `a_b`
untransformed and unannotated, so a second pass over the output (with the
same catalog, which is consistent with the transformed names) changes the
directive line again. -/
theorem C7_not_idempotent :
    convertLines (buildTableMap [lit "t"]) (buildColumnMap [(lit "t", lit "a_b")])
        (convertLines (buildTableMap [lit "t"]) (buildColumnMap [(lit "t", lit "a_b")])
          [lit "model t \x7b", lit "  @@index([a_bMixed, a_b])", lit "\x7d"])
      ≠ convertLines (buildTableMap [lit "t"]) (buildColumnMap [(lit "t", lit "a_b")])
          [lit "model t \x7b", lit "  @@index([a_bMixed, a_b])", lit "\x7d"] := by decide

/-- C4 counterexample: a line outside any block that triggers no rewrite is
not emitted unchanged including its trailing whitespace — the walker
trimEnds every line first; additionally a renamed field's separating
whitespace run is collapsed to a single space (third conjunct). -/
theorem C4_trailing_whitespace_counterexample :
    convertLines [] [] [lit "x  "] = [lit "x"] ∧ lit "x" ≠ lit "x  " ∧
    convertLines [] [] [lit "model t \x7b", lit "  a_b   Int", lit "\x7d"]
      = [lit "model t \x7b", lit "  @@map(\"t\")", lit "  aB Int @map(\"a_b\")",
         lit "\x7d"] := by decide

/-- C6 counterexample: the model-header identifier `USERS` contains
upper-case characters (the Classifier does not flag it), yet with catalog
table `users` the header is rewritten to `model User` and a mapping
directive is synthesized, because the header resolution also matches a
catalog table equal to the lower-cased model name. -/
theorem C6_uppercase_counterexample :
    convertLines (buildTableMap [lit "users"]) [] [lit "model USERS \x7b", lit "\x7d"]
      = [lit "model User \x7b", lit "  @@map(\"users\")", lit "\x7d"] ∧
    shouldTransform (lit "USERS") = false := by decide

/-- C8 counterexample: after a model-header line whose block contains a
line with the `@@map(` marker but no extractable quoted name, the walker is
inside a block with a null current table name, violating the invariant. -/
theorem C8_invariant_counterexample :
    (runLines [] [] initSt [lit "model A \x7b", lit "  // @@map()"]).1.inBlock = true ∧
    (runLines [] [] initSt [lit "model A \x7b", lit "  // @@map()"]).1.table = none := by
  decide

theorem not_header_of_at {t : Str} : modelHeaderMatch ('@' :: t) = none := rfl

theorem slash_prefix_false {c : Char} {t : Str} (hcw : wordChar c = true) :
    (lit "//").isPrefixOf (c :: t) = false := by
  have e : lit "//" = '/' :: [ '/' ] := rfl
  have hne : c ≠ '/' := by
    intro h
    subst h
    exact absurd hcw (by decide)
  rw [e]
  simp only [List.isPrefixOf, Bool.and_eq_false_iff]
  left
  simp [beq_iff_eq]
  exact fun h => hne h.symm

theorem dir_false_of_word {c : Char} {t : Str} (hcw : wordChar c = true) :
    isDirectiveLine (c :: t) = false := by
  have hne : ('@' : Char) ≠ c := by
    intro h
    rw [← h] at hcw
    exact absurd hcw (by decide)
  have key : ∀ (xs : Str), ('@' :: xs).isPrefixOf (c :: t) = false := by
    intro xs
    simp only [List.isPrefixOf, Bool.and_eq_false_iff]
    left
    simp [beq_iff_eq]
    exact hne
  have e1 : lit "@@index" = '@' :: lit "@index" := rfl
  have e2 : lit "@@unique" = '@' :: lit "@unique" := rfl
  have e3 : lit "@@id" = '@' :: lit "@id" := rfl
  have e4 : lit "@@fulltext" = '@' :: lit "@fulltext" := rfl
  simp only [isDirectiveLine, e1, e2, e3, e4, key, Bool.or_self, Bool.or_false]

theorem close_ne_of_word {c : Char} {t : Str} (hcw : wordChar c = true) :
    (c :: t : Str) ≠ [ '}' ] := by
  intro h
  have hc : c = '}' := (List.cons.injEq _ _ _ _ ▸ h : _) |>.1
  rw [hc] at hcw
  exact absurd hcw (by decide)

theorem trimStr_decomp {indent f ws r0 : Str} {c : Char}
    (hi : indent.all wsChar = true)
    (hf : f ≠ []) (hfw : f.all wordChar = true)
    (hc : wsChar c = false) :
    trimStr (indent ++ (f ++ (ws ++ (r0 ++ [c])))) = f ++ (ws ++ (r0 ++ [c])) := by
  obtain ⟨fc, ft, rfl⟩ := List.exists_cons_of_ne_nil hf
  have hfcw : wordChar fc = true := by
    simp only [List.all_cons, Bool.and_eq_true] at hfw
    exact hfw.1
  have hassoc : indent ++ ((fc :: ft) ++ (ws ++ (r0 ++ [c])))
      = (indent ++ ((fc :: ft) ++ (ws ++ r0))) ++ [c] := by simp
  rw [trimStr, hassoc, trimEnd_keep_snoc hc, ← hassoc]
  refine dropWhile_append_all hi ?_
  intro d hd
  simp at hd
  rw [← hd]
  exact word_not_ws hfcw

theorem step_rename_line (tmap cmap : List (Str × Str)) (m tbl indent f ws r0 : Str)
    (c : Char) (rest : List Str)
    (hm : m ≠ []) (ht : tbl ≠ [])
    (hi : indent.all wsChar = true)
    (hf : f ≠ []) (hfw : f.all wordChar = true)
    (hws : ws ≠ []) (hwsw : ws.all wsChar = true)
    (hrh : ∀ d, (r0 ++ [c]).head? = some d → wsChar d = false)
    (hc : wsChar c = false)
    (hh : modelHeaderMatch (f ++ (ws ++ (r0 ++ [c]))) = none)
    (hnomap : hasSub (lit "@map(") (r0 ++ [c]) = false)
    (hst : shouldTransform f = true)
    (hcf : camelCase f ≠ f) :
    step tmap cmap ⟨some m, some tbl, true⟩ (indent ++ (f ++ (ws ++ (r0 ++ [c])))) rest
      = (⟨some m, some tbl, true⟩,
         [indent ++ ((mapGet cmap (tbl ++ '.' :: f)).getD (camelCase f)) ++ ' ' ::
            ((r0 ++ [c]) ++ lit " @map(\"" ++ f ++ lit "\")")]) := by
  have htrim : trimStr (indent ++ (f ++ (ws ++ (r0 ++ [c])))) = f ++ (ws ++ (r0 ++ [c])) :=
    trimStr_decomp hi hf hfw hc
  have hassoc : indent ++ (f ++ (ws ++ (r0 ++ [c])))
      = (indent ++ (f ++ (ws ++ r0))) ++ [c] := by simp
  have htrimEnd : trimEndStr (indent ++ (f ++ (ws ++ (r0 ++ [c]))))
      = indent ++ (f ++ (ws ++ (r0 ++ [c]))) := by
    rw [hassoc, trimEnd_keep_snoc hc, ← hassoc]
  obtain ⟨fc, ft, hfe⟩ := List.exists_cons_of_ne_nil hf
  have hfcw : wordChar fc = true := by
    rw [hfe] at hfw
    simp only [List.all_cons, Bool.and_eq_true] at hfw
    exact hfw.1
  have htrimmed_cons : trimStr (indent ++ (f ++ (ws ++ (r0 ++ [c]))))
      = fc :: (ft ++ (ws ++ (r0 ++ [c]))) := by
    rw [htrim, hfe]
    simp
  have hr_ne : (r0 ++ [c] : Str) ≠ [] := by simp
  have hfm : fieldLineMatch (trimStr (indent ++ (f ++ (ws ++ (r0 ++ [c])))))
      = some (f, r0 ++ [c]) := by
    rw [htrim]
    exact fieldLineMatch_decomp hf hfw hws hwsw hr_ne hrh
  have hstep := step_inblock_field tmap cmap m tbl
      (indent ++ (f ++ (ws ++ (r0 ++ [c])))) rest hm ht
      (by rw [htrim]; exact hh)
      (by rw [htrimmed_cons]; exact close_ne_of_word hfcw)
      (by rw [htrimmed_cons]; exact dir_false_of_word hfcw)
  rw [hstep]
  have hfs := @fieldStep_rename cmap tbl
      (trimEndStr (indent ++ (f ++ (ws ++ (r0 ++ [c])))))
      (trimStr (indent ++ (f ++ (ws ++ (r0 ++ [c]))))) f (r0 ++ [c])
      hfm
      (by rw [htrimmed_cons]; exact slash_prefix_false hfcw)
      (by rw [htrimmed_cons]; exact List.cons_ne_nil _ _)
      hnomap hst hcf
  rw [hfs, htrimEnd]
  have hrn : renameField (indent ++ (f ++ (ws ++ (r0 ++ [c])))) f
      ((mapGet cmap (tbl ++ '.' :: f)).getD (camelCase f))
      = indent ++ ((mapGet cmap (tbl ++ '.' :: f)).getD (camelCase f)) ++ ' ' :: (r0 ++ [c]) :=
    renameField_decomp hi hf hfw hws hwsw hr_ne hrh
  rw [hrn]
  simp

theorem fieldLineMatch_head {s f r : Str} (h : fieldLineMatch s = some (f, r)) :
    ∃ c t, s = c :: t ∧ wordChar c = true := by
  cases s with
  | nil => simp [fieldLineMatch] at h
  | cons c t =>
    cases hw : wordChar c with
    | true => exact ⟨c, t, rfl, hw⟩
    | false => simp [fieldLineMatch, List.takeWhile, hw] at h

theorem isDirectiveLine_at {s : Str} (h : isDirectiveLine s = true) :
    ∃ t, s = '@' :: t := by
  cases s with
  | nil => exact absurd h (by decide)
  | cons c t =>
    refine ⟨t, ?_⟩
    by_cases hne : c = '@'
    · rw [hne]
    · exfalso
      have key : ∀ xs : Str, ('@' :: xs).isPrefixOf (c :: t) = false := by
        intro xs
        simp only [List.isPrefixOf, Bool.and_eq_false_iff]
        left
        simp [beq_iff_eq]
        exact fun h2 => hne h2.symm
      have e1 : lit "@@index" = '@' :: lit "@index" := rfl
      have e2 : lit "@@unique" = '@' :: lit "@unique" := rfl
      have e3 : lit "@@id" = '@' :: lit "@id" := rfl
      have e4 : lit "@@fulltext" = '@' :: lit "@fulltext" := rfl
      rw [isDirectiveLine, e1, e2, e3, e4, key, key, key, key] at h
      simp at h

/-- C9: when no explicit mapping exists and several catalog entries match
the model name, the walker resolves to the first matching entry in catalog
insertion order, testing all three criteria on each entry before moving on:
an earlier entry matching only a weaker criterion (raw name equal to the
lower-cased model name, or transformed raw name equal to the model name)
beats a later entry whose transformed value equals the model name exactly. -/
theorem C9_first_match_wins (name : Str) (pre mid post : List (Str × Str))
    (tn1 tv1 tn2 tv2 : Str)
    (hpre : ∀ e ∈ pre, matchCrit name e = false)
    (h1 : tv1 ≠ name)
    (h2 : tn1 = lowerStr name ∨ transformTableName tn1 = name)
    (h3 : tv2 = name) :
    findTableMatch name (pre ++ (tn1, tv1) :: (mid ++ (tn2, tv2) :: post))
      = some (tn1, lit "model " ++ transformTableName tn1 ++ lit " \x7b") := by
  induction pre with
  | nil =>
    simp only [List.nil_append, findTableMatch]
    rw [if_neg h1, if_pos (by simp only [Bool.or_eq_true, decide_eq_true_eq]; exact h2)]
  | cons e pre ih =>
    have he := hpre e (List.mem_cons_self _ _)
    obtain ⟨tn, tv⟩ := e
    simp only [matchCrit, Bool.or_eq_false_iff, decide_eq_false_iff_not] at he
    simp only [List.cons_append, findTableMatch]
    rw [if_neg he.1.1,
      if_neg (by simp only [Bool.or_eq_true, decide_eq_true_eq, not_or]; exact ⟨he.1.2, he.2⟩)]
    exact ih (fun e' he' => hpre e' (List.mem_cons_of_mem _ he'))

theorem C9_first_match_wins_witness :
    findTableMatch (lit "Users")
        ([(lit "zz", lit "Zz")] ++ (lit "users", lit "User") ::
          ([] ++ (lit "x", lit "Users") :: []))
      = some (lit "users", lit "model " ++ transformTableName (lit "users") ++ lit " \x7b") :=
  C9_first_match_wins (lit "Users") [(lit "zz", lit "Zz")] [] []
    (lit "users") (lit "User") (lit "x") (lit "Users")
    (by decide) (by decide) (by decide) (by decide)

theorem step_header_explicit (tmap cmap : List (Str × Str)) (st : WalkSt)
    (l : Str) (rest : List Str) (name l' R : Str)
    (hh : modelHeaderMatch (trimStr l) = some name)
    (hb : blockMapLine rest = some l')
    (he : extractMapName l' = some R) :
    step tmap cmap st l rest = (⟨some name, some R, true⟩, [trimEndStr l]) := by
  simp only [step]
  rw [hh]
  simp only [headerStep]
  rw [hb]
  simp only [he]

/-- C3 (amended): when the first line of a block lookahead region that
contains the substring `@@map(` also matches the quoted-name extraction
regex with raw name R, the walker takes R as its current table name with no
catalog resolution (the result does not depend on the table map, the header
is emitted unchanged and no mapping line is synthesized), and R is then the
table component both of the directive rewriting and of the column-mapping
lookup of a renamed field declaration.  (The counterexample shows the gap
the original claim misses: an earlier `@@map(` marker line that fails
extraction masks a genuine annotation further down the block.) -/
theorem C3_explicit_map_priority :
    (∀ (tmap cmap : List (Str × Str)) (st : WalkSt) (l : Str) (rest : List Str)
       (name l' R : Str),
      modelHeaderMatch (trimStr l) = some name →
      blockMapLine rest = some l' →
      extractMapName l' = some R →
      step tmap cmap st l rest = (⟨some name, some R, true⟩, [trimEndStr l])) ∧
    (∀ (tmap cmap : List (Str × Str)) (m R l : Str) (rest : List Str),
      R ≠ [] → isDirectiveLine (trimStr l) = true →
      step tmap cmap ⟨some m, some R, true⟩ l rest
        = (⟨some m, some R, true⟩, [transformDirectiveFields (trimEndStr l) cmap R])) ∧
    (∀ (tmap cmap : List (Str × Str)) (m R indent f ws r0 : Str) (c : Char)
       (rest : List Str),
      m ≠ [] → R ≠ [] → indent.all wsChar = true →
      f ≠ [] → f.all wordChar = true → ws ≠ [] → ws.all wsChar = true →
      (∀ d, (r0 ++ [c]).head? = some d → wsChar d = false) → wsChar c = false →
      modelHeaderMatch (f ++ (ws ++ (r0 ++ [c]))) = none →
      hasSub (lit "@map(") (r0 ++ [c]) = false →
      shouldTransform f = true → camelCase f ≠ f →
      (step tmap cmap ⟨some m, some R, true⟩ (indent ++ (f ++ (ws ++ (r0 ++ [c])))) rest).2
        = [indent ++ ((mapGet cmap (R ++ '.' :: f)).getD (camelCase f)) ++ ' ' ::
            ((r0 ++ [c]) ++ lit " @map(\"" ++ f ++ lit "\")")]) := by
  refine ⟨?_, ?_, ?_⟩
  · intro tmap cmap st l rest name l' R hh hb he
    exact step_header_explicit tmap cmap st l rest name l' R hh hb he
  · intro tmap cmap m R l rest hR hd
    obtain ⟨t, ht⟩ := isDirectiveLine_at hd
    refine step_inblock_directive tmap cmap m R l rest hR ?_ ?_ hd
    · rw [ht]
      exact not_header_of_at
    · rw [ht]
      intro h2
      have := (List.cons.injEq _ _ _ _ ▸ h2 : _) |>.1
      exact absurd this (by decide)
  · intro tmap cmap m R indent f ws r0 c rest hm hR hi hf hfw hws hwsw hrh hc hh hnomap hst hcf
    rw [step_rename_line tmap cmap m R indent f ws r0 c rest hm hR hi hf hfw hws hwsw hrh hc
      hh hnomap hst hcf]

theorem C3_explicit_map_priority_witness :
    step [(lit "foo", lit "Foo")] [] initSt (lit "model Foo \x7b")
        [lit "  @@map(\"legacy_tbl\")", lit "\x7d"]
      = (⟨some (lit "Foo"), some (lit "legacy_tbl"), true⟩,
         [trimEndStr (lit "model Foo \x7b")]) ∧
    step [] [] ⟨some (lit "Foo"), some (lit "legacy_tbl"), true⟩
        (lit "  @@index([a_b])") []
      = (⟨some (lit "Foo"), some (lit "legacy_tbl"), true⟩,
         [transformDirectiveFields (trimEndStr (lit "  @@index([a_b])")) []
            (lit "legacy_tbl")]) ∧
    (step [] [] ⟨some (lit "Foo"), some (lit "legacy_tbl"), true⟩
        (lit "  " ++ (lit "a_b" ++ (lit " " ++ (lit "In" ++ [ 't' ])))) []).2
      = [lit "  " ++ ((mapGet [] (lit "legacy_tbl" ++ '.' :: lit "a_b")).getD
            (camelCase (lit "a_b"))) ++ ' ' ::
          ((lit "In" ++ [ 't' ]) ++ lit " @map(\"" ++ lit "a_b" ++ lit "\")")] :=
  ⟨C3_explicit_map_priority.1 [(lit "foo", lit "Foo")] [] initSt (lit "model Foo \x7b")
      [lit "  @@map(\"legacy_tbl\")", lit "\x7d"]
      (lit "Foo") (lit "  @@map(\"legacy_tbl\")") (lit "legacy_tbl")
      (by decide) (by decide) (by decide),
   C3_explicit_map_priority.2.1 [] [] (lit "Foo") (lit "legacy_tbl")
      (lit "  @@index([a_b])") [] (by decide) (by decide),
   C3_explicit_map_priority.2.2 [] [] (lit "Foo") (lit "legacy_tbl") (lit "  ")
      (lit "a_b") (lit " ") (lit "In") 't' []
      (by decide) (by decide) (by decide) (by decide) (by decide) (by decide) (by decide)
      (by intro d hd
          have h0 : (lit "In" ++ [ 't' ]).head? = some 'I' := rfl
          rw [h0] at hd
          injection hd with h1
          rw [← h1]
          decide)
      (by decide) (by decide) (by decide) (by decide) (by decide)⟩

theorem prefix2_inv {s : Str} (h : (lit "//").isPrefixOf s = true) :
    ∃ t, s = '/' :: '/' :: t := by
  have e : lit "//" = '/' :: '/' :: [] := rfl
  rw [e] at h
  cases s with
  | nil => simp [List.isPrefixOf] at h
  | cons c cs =>
    cases cs with
    | nil => simp [List.isPrefixOf] at h
    | cons c2 cs2 =>
      simp only [List.isPrefixOf, Bool.and_eq_true, beq_iff_eq] at h
      exact ⟨cs2, by rw [← h.1, ← h.2.1]⟩

theorem ne_close_of_ne {c : Char} {t : Str} (h : c ≠ '}') :
    (c :: t : Str) ≠ [ '}' ] := by
  intro he
  exact h ((List.cons.injEq _ _ _ _ ▸ he : _) |>.1)

theorem not_header_of_slash {t : Str} : modelHeaderMatch ('/' :: t) = none := rfl

theorem dir_false_of_ne_at {c : Char} {t : Str} (hne : c ≠ '@') :
    isDirectiveLine (c :: t) = false := by
  have key : ∀ xs : Str, ('@' :: xs).isPrefixOf (c :: t) = false := by
    intro xs
    simp only [List.isPrefixOf, Bool.and_eq_false_iff]
    left
    simp [beq_iff_eq]
    exact fun h2 => hne h2.symm
  have e1 : lit "@@index" = '@' :: lit "@index" := rfl
  have e2 : lit "@@unique" = '@' :: lit "@unique" := rfl
  have e3 : lit "@@id" = '@' :: lit "@id" := rfl
  have e4 : lit "@@fulltext" = '@' :: lit "@fulltext" := rfl
  simp only [isDirectiveLine, e1, e2, e3, e4, key, Bool.or_self, Bool.or_false]

theorem fieldLineMatch_none_of_head {c : Char} {t : Str} (hw : wordChar c = false) :
    fieldLineMatch (c :: t) = none := by
  simp [fieldLineMatch, List.takeWhile, hw]

theorem step_noop (tmap cmap : List (Str × Str)) (st : WalkSt) (l : Str)
    (rest : List Str)
    (hh : modelHeaderMatch (trimStr l) = none)
    (hcl : trimStr l ≠ [ '}' ])
    (hdt : isDirectiveLine (trimStr l) = true →
      ∀ tbl, transformDirectiveFields (trimEndStr l) cmap tbl = trimEndStr l)
    (hfs : ∀ tbl, fieldStep cmap tbl (trimEndStr l) (trimStr l) = trimEndStr l) :
    step tmap cmap st l rest = (st, [trimEndStr l]) := by
  have c1 : (st.inBlock && decide (trimStr l = [ '}' ])) = false := by
    rw [decide_eq_false hcl]
    simp
  simp only [step, hh]
  simp only [c1, Bool.false_eq_true, if_false]
  split
  · next hcond =>
      have hd : isDirectiveLine (trimStr l) = true := by
        simp only [Bool.and_eq_true] at hcond
        exact hcond.2
      rw [hdt hd _]
  · split
    · rw [hfs _]
    · rfl

/-- C4 (amended): every line is first stripped of trailing whitespace; a
stripped line that triggers no rewrite is emitted exactly as the stripped
line with the state unchanged — outside any block (conjunct 1), a comment
line (2), a whitespace-only or empty line (3), an already-annotated field
line (4), a field line whose identifier the Classifier does not flag (5),
and a structural-directive line without a bracketed list (6), these last
five in every walker state; and when a field identifier is renamed
(conjunct 7), the leading indentation and everything after the whitespace
run separating the identifier from the type are preserved exactly, but that
separating run is collapsed to a single space, with the synthesized mapping
text appended at the end. -/
theorem C4_frame_amended :
    (∀ (tmap cmap : List (Str × Str)) (st : WalkSt) (l : Str) (rest : List Str),
      st.inBlock = false → modelHeaderMatch (trimStr l) = none →
      (step tmap cmap st l rest).2 = [trimEndStr l]) ∧
    (∀ (tmap cmap : List (Str × Str)) (st : WalkSt) (l : Str) (rest : List Str),
      (lit "//").isPrefixOf (trimStr l) = true →
      step tmap cmap st l rest = (st, [trimEndStr l])) ∧
    (∀ (tmap cmap : List (Str × Str)) (st : WalkSt) (l : Str) (rest : List Str),
      trimStr l = [] →
      step tmap cmap st l rest = (st, [trimEndStr l])) ∧
    (∀ (tmap cmap : List (Str × Str)) (st : WalkSt) (l : Str) (rest : List Str)
       (f r : Str),
      modelHeaderMatch (trimStr l) = none →
      fieldLineMatch (trimStr l) = some (f, r) →
      hasSub (lit "@map(") r = true →
      step tmap cmap st l rest = (st, [trimEndStr l])) ∧
    (∀ (tmap cmap : List (Str × Str)) (st : WalkSt) (l : Str) (rest : List Str)
       (f r : Str),
      modelHeaderMatch (trimStr l) = none →
      fieldLineMatch (trimStr l) = some (f, r) →
      shouldTransform f = false →
      step tmap cmap st l rest = (st, [trimEndStr l])) ∧
    (∀ (tmap cmap : List (Str × Str)) (st : WalkSt) (l : Str) (rest : List Str),
      isDirectiveLine (trimStr l) = true →
      findDirective (trimEndStr l) = none →
      step tmap cmap st l rest = (st, [trimEndStr l])) ∧
    (∀ (tmap cmap : List (Str × Str)) (m tbl indent f ws r0 : Str) (c : Char)
       (rest : List Str),
      m ≠ [] → tbl ≠ [] → indent.all wsChar = true →
      f ≠ [] → f.all wordChar = true → ws ≠ [] → ws.all wsChar = true →
      (∀ d, (r0 ++ [c]).head? = some d → wsChar d = false) → wsChar c = false →
      modelHeaderMatch (f ++ (ws ++ (r0 ++ [c]))) = none →
      hasSub (lit "@map(") (r0 ++ [c]) = false →
      shouldTransform f = true → camelCase f ≠ f →
      (step tmap cmap ⟨some m, some tbl, true⟩ (indent ++ (f ++ (ws ++ (r0 ++ [c])))) rest).2
        = [indent ++ ((mapGet cmap (tbl ++ '.' :: f)).getD (camelCase f)) ++ ' ' ::
            ((r0 ++ [c]) ++ lit " @map(\"" ++ f ++ lit "\")")]) := by
  refine ⟨?_, ?_, ?_, ?_, ?_, ?_, ?_⟩
  · intro tmap cmap st l rest hb hh
    rw [step_outside tmap cmap st l rest hb hh]
  · intro tmap cmap st l rest hcom
    obtain ⟨t2, hct⟩ := prefix2_inv hcom
    have hfm : fieldLineMatch (trimStr l) = none := by
      rw [hct]
      exact fieldLineMatch_none_of_head (by decide)
    refine step_noop tmap cmap st l rest ?_ ?_ ?_ ?_
    · rw [hct]
      exact not_header_of_slash
    · rw [hct]
      exact ne_close_of_ne (by decide)
    · intro hd
      rw [hct, dir_false_of_ne_at (by decide)] at hd
      exact absurd hd (by simp)
    · intro tbl
      simp [fieldStep, hfm]
  · intro tmap cmap st l rest he
    have hfm : fieldLineMatch (trimStr l) = none := by
      rw [he]
      rfl
    refine step_noop tmap cmap st l rest ?_ ?_ ?_ ?_
    · rw [he]
      rfl
    · rw [he]
      decide
    · intro hd
      rw [he] at hd
      exact absurd hd (by decide)
    · intro tbl
      simp [fieldStep, hfm]
  · intro tmap cmap st l rest f r hh hfm hmap
    obtain ⟨c, t, hct, hcw⟩ := fieldLineMatch_head hfm
    refine step_noop tmap cmap st l rest hh ?_ ?_ ?_
    · rw [hct]
      exact close_ne_of_word hcw
    · intro hd
      rw [hct, dir_false_of_word hcw] at hd
      exact absurd hd (by simp)
    · intro tbl
      rw [fieldStep_hasMap hfm hmap]
  · intro tmap cmap st l rest f r hh hfm hst
    obtain ⟨c, t, hct, hcw⟩ := fieldLineMatch_head hfm
    refine step_noop tmap cmap st l rest hh ?_ ?_ ?_
    · rw [hct]
      exact close_ne_of_word hcw
    · intro hd
      rw [hct, dir_false_of_word hcw] at hd
      exact absurd hd (by simp)
    · intro tbl
      rw [fieldStep_noTransform hfm hst]
  · intro tmap cmap st l rest hd hfd
    obtain ⟨t2, hct⟩ := isDirectiveLine_at hd
    have hfm : fieldLineMatch (trimStr l) = none := by
      rw [hct]
      exact fieldLineMatch_none_of_head (by decide)
    refine step_noop tmap cmap st l rest ?_ ?_ ?_ ?_
    · rw [hct]
      exact not_header_of_at
    · rw [hct]
      exact ne_close_of_ne (by decide)
    · intro _ tbl
      simp [transformDirectiveFields, hfd]
    · intro tbl
      simp [fieldStep, hfm]
  · intro tmap cmap m tbl indent f ws r0 c rest hm ht hi hf hfw hws hwsw hrh hc hh hnomap hst hcf
    rw [step_rename_line tmap cmap m tbl indent f ws r0 c rest hm ht hi hf hfw hws hwsw hrh hc
      hh hnomap hst hcf]

theorem C4_frame_amended_witness :
    (step [] [] initSt (lit "x  ") []).2 = [trimEndStr (lit "x  ")] ∧
    step [] [] ⟨some (lit "A"), some (lit "t"), true⟩ (lit "  // note  ") []
      = (⟨some (lit "A"), some (lit "t"), true⟩, [trimEndStr (lit "  // note  ")]) ∧
    step [] [] ⟨some (lit "A"), some (lit "t"), true⟩ (lit "   ") []
      = (⟨some (lit "A"), some (lit "t"), true⟩, [trimEndStr (lit "   ")]) ∧
    step [] [] ⟨some (lit "A"), some (lit "t"), true⟩ (lit "  a_b Int @map(\"a_b\")") []
      = (⟨some (lit "A"), some (lit "t"), true⟩,
         [trimEndStr (lit "  a_b Int @map(\"a_b\")")]) ∧
    step [] [] ⟨some (lit "A"), some (lit "u"), true⟩ (lit "  userID Int") []
      = (⟨some (lit "A"), some (lit "u"), true⟩, [trimEndStr (lit "  userID Int")]) ∧
    step [] [] ⟨some (lit "A"), some (lit "t"), true⟩ (lit "  @@index") []
      = (⟨some (lit "A"), some (lit "t"), true⟩, [trimEndStr (lit "  @@index")]) ∧
    (step [] [] ⟨some (lit "M"), some (lit "t"), true⟩
        (lit "  " ++ (lit "a_b" ++ (lit "   " ++ (lit "In" ++ [ 't' ])))) []).2
      = [lit "  " ++ ((mapGet [] (lit "t" ++ '.' :: lit "a_b")).getD
            (camelCase (lit "a_b"))) ++ ' ' ::
          ((lit "In" ++ [ 't' ]) ++ lit " @map(\"" ++ lit "a_b" ++ lit "\")")] :=
  ⟨C4_frame_amended.1 [] [] initSt (lit "x  ") [] rfl (by decide),
   C4_frame_amended.2.1 [] [] ⟨some (lit "A"), some (lit "t"), true⟩
      (lit "  // note  ") [] (by decide),
   C4_frame_amended.2.2.1 [] [] ⟨some (lit "A"), some (lit "t"), true⟩
      (lit "   ") [] (by decide),
   C4_frame_amended.2.2.2.1 [] [] ⟨some (lit "A"), some (lit "t"), true⟩
      (lit "  a_b Int @map(\"a_b\")") [] (lit "a_b") (lit "Int @map(\"a_b\")")
      (by decide) (by decide) (by decide),
   C4_frame_amended.2.2.2.2.1 [] [] ⟨some (lit "A"), some (lit "u"), true⟩
      (lit "  userID Int") [] (lit "userID") (lit "Int")
      (by decide) (by decide) (by decide),
   C4_frame_amended.2.2.2.2.2.1 [] [] ⟨some (lit "A"), some (lit "t"), true⟩
      (lit "  @@index") [] (by decide) (by decide),
   C4_frame_amended.2.2.2.2.2.2 [] [] (lit "M") (lit "t") (lit "  ") (lit "a_b") (lit "   ")
      (lit "In") 't' []
      (by decide) (by decide) (by decide) (by decide) (by decide) (by decide) (by decide)
      (by intro d hd
          have h0 : (lit "In" ++ [ 't' ]).head? = some 'I' := rfl
          rw [h0] at hd
          injection hd with h1
          rw [← h1]
          decide)
      (by decide) (by decide) (by decide) (by decide) (by decide)⟩

/-- C6 (amended): a line parsing as a field declaration whose leading
identifier the Classifier does not flag (it contains an upper-case
character) is never renamed and never annotated, for every catalog and in
every walker state — the line is emitted as its trailing-stripped self and
the state is unchanged.  (Model headers are the exception shown by the
counterexample: a header whose name case-insensitively matches a catalog
table is rewritten and annotated; and a directive token containing
upper-case characters can still be textually corrupted by the substitution
performed for another token.) -/
theorem C6_uppercase_amended :
    ∀ (tmap cmap : List (Str × Str)) (st : WalkSt) (l : Str) (rest : List Str)
      (f r : Str),
      modelHeaderMatch (trimStr l) = none →
      fieldLineMatch (trimStr l) = some (f, r) →
      shouldTransform f = false →
      step tmap cmap st l rest = (st, [trimEndStr l]) := by
  intro tmap cmap st l rest f r hh hm hst
  obtain ⟨c, t, hct, hcw⟩ := fieldLineMatch_head hm
  have hcl : trimStr l ≠ [ '}' ] := by
    rw [hct]
    exact close_ne_of_word hcw
  have hd : isDirectiveLine (trimStr l) = false := by
    rw [hct]
    exact dir_false_of_word hcw
  have c1 : (st.inBlock && decide (trimStr l = [ '}' ])) = false := by
    rw [decide_eq_false hcl]
    simp
  have c2 : (st.inBlock && optTruthy st.table && isDirectiveLine (trimStr l)) = false := by
    rw [hd]
    simp
  simp only [step]
  rw [hh]
  simp only [c1, c2, Bool.false_eq_true, if_false]
  split
  · rw [fieldStep_noTransform hm hst]
  · rfl

theorem C6_uppercase_amended_witness :
    step (buildTableMap [lit "t"]) (buildColumnMap [(lit "t", lit "user_id")])
        ⟨some (lit "M"), some (lit "t"), true⟩ (lit "  userId Int") []
      = (⟨some (lit "M"), some (lit "t"), true⟩, [trimEndStr (lit "  userId Int")]) :=
  C6_uppercase_amended (buildTableMap [lit "t"]) (buildColumnMap [(lit "t", lit "user_id")])
    ⟨some (lit "M"), some (lit "t"), true⟩ (lit "  userId Int") []
    (lit "userId") (lit "Int") (by decide) (by decide) (by decide)

/-- C10: a field line whose remainder contains `@map(` anywhere (also inside
a trailing comment) is treated as already annotated and emitted without
rename or annotation; and when a field is renamed, the synthesized mapping
text is appended at the absolute end of the emitted line, after all
pre-existing trailing content (including a trailing line comment). -/
theorem C10_annotation_append :
    (∀ (tmap cmap : List (Str × Str)) (m tbl l : Str) (rest : List Str) (f r : Str),
      m ≠ [] → tbl ≠ [] →
      modelHeaderMatch (trimStr l) = none →
      fieldLineMatch (trimStr l) = some (f, r) →
      hasSub (lit "@map(") r = true →
      step tmap cmap ⟨some m, some tbl, true⟩ l rest
        = (⟨some m, some tbl, true⟩, [trimEndStr l])) ∧
    (∀ (tmap cmap : List (Str × Str)) (m tbl indent f ws r0 : Str) (c : Char)
       (rest : List Str),
      m ≠ [] → tbl ≠ [] → indent.all wsChar = true →
      f ≠ [] → f.all wordChar = true → ws ≠ [] → ws.all wsChar = true →
      (∀ d, (r0 ++ [c]).head? = some d → wsChar d = false) → wsChar c = false →
      modelHeaderMatch (f ++ (ws ++ (r0 ++ [c]))) = none →
      hasSub (lit "@map(") (r0 ++ [c]) = false →
      shouldTransform f = true → camelCase f ≠ f →
      (step tmap cmap ⟨some m, some tbl, true⟩ (indent ++ (f ++ (ws ++ (r0 ++ [c])))) rest).2
        = [(indent ++ ((mapGet cmap (tbl ++ '.' :: f)).getD (camelCase f)) ++ ' ' :: (r0 ++ [c]))
            ++ (lit " @map(\"" ++ f ++ lit "\")")]) := by
  constructor
  · intro tmap cmap m tbl l rest f r hm ht hh hfm hmap
    obtain ⟨c, t, hct, hcw⟩ := fieldLineMatch_head hfm
    rw [step_inblock_field tmap cmap m tbl l rest hm ht hh
      (by rw [hct]; exact close_ne_of_word hcw)
      (by rw [hct]; exact dir_false_of_word hcw)]
    rw [fieldStep_hasMap hfm hmap]
  · intro tmap cmap m tbl indent f ws r0 c rest hm ht hi hf hfw hws hwsw hrh hc hh hnomap hst hcf
    rw [step_rename_line tmap cmap m tbl indent f ws r0 c rest hm ht hi hf hfw hws hwsw hrh hc
      hh hnomap hst hcf]
    simp

theorem C10_annotation_append_witness :
    step [] [] ⟨some (lit "M"), some (lit "t"), true⟩
        (lit "  x_y Int // has @map( marker") []
      = (⟨some (lit "M"), some (lit "t"), true⟩,
         [trimEndStr (lit "  x_y Int // has @map( marker")]) ∧
    (step [] [] ⟨some (lit "M"), some (lit "t"), true⟩
        (lit "  " ++ (lit "a_b" ++ (lit " " ++ (lit "Int // not" ++ [ 'e' ])))) []).2
      = [(lit "  " ++ ((mapGet [] (lit "t" ++ '.' :: lit "a_b")).getD
            (camelCase (lit "a_b"))) ++ ' ' :: (lit "Int // not" ++ [ 'e' ]))
          ++ (lit " @map(\"" ++ lit "a_b" ++ lit "\")")] :=
  ⟨C10_annotation_append.1 [] [] (lit "M") (lit "t")
      (lit "  x_y Int // has @map( marker") [] (lit "x_y") (lit "Int // has @map( marker")
      (by decide) (by decide) (by decide) (by decide) (by decide),
   C10_annotation_append.2 [] [] (lit "M") (lit "t") (lit "  ") (lit "a_b") (lit " ")
      (lit "Int // not") 'e' []
      (by decide) (by decide) (by decide) (by decide) (by decide) (by decide) (by decide)
      (by intro d hd
          have h0 : (lit "Int // not" ++ [ 'e' ]).head? = some 'I' := rfl
          rw [h0] at hd
          injection hd with h1
          rw [← h1]
          decide)
      (by decide) (by decide) (by decide) (by decide) (by decide)⟩

theorem step_close (tmap cmap : List (Str × Str)) (st : WalkSt) (l : Str)
    (rest : List Str) (hb : st.inBlock = true) (hcl : trimStr l = [ '}' ]) :
    step tmap cmap st l rest = (⟨none, none, false⟩, [trimEndStr l]) := by
  have hh : modelHeaderMatch (trimStr l) = none := by rw [hcl]; rfl
  simp only [step]
  rw [hh]
  simp [hb, hcl]

theorem step_header_good (tmap cmap : List (Str × Str)) (st : WalkSt) (l : Str)
    (rest : List Str) (name : Str)
    (hh : modelHeaderMatch (trimStr l) = some name)
    (hgood : ∀ l2 ∈ rest, goodLine l2) :
    (step tmap cmap st l rest).1.model = some name ∧
    (step tmap cmap st l rest).1.table.isSome = true ∧
    (step tmap cmap st l rest).1.inBlock = true := by
  simp only [step]
  rw [hh]
  simp only [headerStep]
  cases hb : blockMapLine rest with
  | some l2 =>
    have hmem : l2 ∈ rest := by
      have h1 := List.mem_of_find?_eq_some hb
      exact (List.takeWhile_sublist _).subset h1
    have hpred : hasSub (lit "@@map(") l2 = true := List.find?_some hb
    have hgl : (extractMapName l2).isSome = true := hgood l2 hmem hpred
    cases he : extractMapName l2 with
    | some R => simp [he]
    | none => rw [he] at hgl; simp at hgl
  | none =>
    cases hf : findTableMatch name tmap with
    | some p =>
      obtain ⟨tn, hdr⟩ := p
      simp
    | none => simp

theorem step_StInv (tmap cmap : List (Str × Str)) (st : WalkSt) (l : Str)
    (rest : List Str) (hinv : StInv st) (hgood : ∀ l2 ∈ rest, goodLine l2) :
    StInv (step tmap cmap st l rest).1 := by
  cases hh : modelHeaderMatch (trimStr l) with
  | some name =>
    have h := step_header_good tmap cmap st l rest name hh hgood
    left
    exact ⟨h.2.2, by rw [h.1]; rfl, h.2.1⟩
  | none =>
    simp only [step, hh]
    split
    · right
      exact ⟨rfl, rfl, rfl⟩
    · split
      · exact hinv
      · split
        · exact hinv
        · exact hinv

/-- C8 (amended): provided every line that contains the `@@map(` marker
also admits the quoted-name extraction (the counterexample's gap), the
Parse Cursor State invariant holds throughout the pass: model and table are
both non-null iff the walker is inside a block; a block-close line observed
while inside a block resets both to null; and after processing any
model-header line the walker has a non-null current table name. -/
theorem C8_invariant_amended :
    (∀ (tmap cmap : List (Str × Str)) (lines : List Str) (st : WalkSt),
      StInv st → (∀ l ∈ lines, goodLine l) →
      StInv (runLines tmap cmap st lines).1) ∧
    (∀ (tmap cmap : List (Str × Str)) (st : WalkSt) (l : Str) (rest : List Str),
      st.inBlock = true → trimStr l = [ '}' ] →
      (step tmap cmap st l rest).1 = ⟨none, none, false⟩) ∧
    (∀ (tmap cmap : List (Str × Str)) (st : WalkSt) (l : Str) (rest : List Str)
       (name : Str),
      modelHeaderMatch (trimStr l) = some name →
      (∀ l2 ∈ rest, goodLine l2) →
      (step tmap cmap st l rest).1.model = some name ∧
      (step tmap cmap st l rest).1.table.isSome = true ∧
      (step tmap cmap st l rest).1.inBlock = true) := by
  refine ⟨?_, ?_, ?_⟩
  · intro tmap cmap lines
    induction lines with
    | nil =>
      intro st h _
      simpa [runLines] using h
    | cons l ls ih =>
      intro st hinv hg
      simp only [runLines]
      exact ih (step tmap cmap st l ls).1
        (step_StInv tmap cmap st l ls hinv
          (fun l2 hl2 => hg l2 (List.mem_cons_of_mem _ hl2)))
        (fun l2 hl2 => hg l2 (List.mem_cons_of_mem _ hl2))
  · intro tmap cmap st l rest hb hcl
    rw [step_close tmap cmap st l rest hb hcl]
  · intro tmap cmap st l rest name hh hg
    exact step_header_good tmap cmap st l rest name hh hg

theorem C8_invariant_amended_witness :
    StInv (runLines [] [] initSt
        [lit "model A \x7b", lit "  @@map(\"t\")", lit "\x7d"]).1 ∧
    (step [] [] ⟨some (lit "A"), some (lit "t"), true⟩ (lit "\x7d") []).1
      = ⟨none, none, false⟩ ∧
    ((step [] [] initSt (lit "model B \x7b") [lit "\x7d"]).1.model = some (lit "B") ∧
     (step [] [] initSt (lit "model B \x7b") [lit "\x7d"]).1.table.isSome = true ∧
     (step [] [] initSt (lit "model B \x7b") [lit "\x7d"]).1.inBlock = true) :=
  ⟨C8_invariant_amended.1 [] [] [lit "model A \x7b", lit "  @@map(\"t\")", lit "\x7d"]
      initSt (by right; exact ⟨rfl, rfl, rfl⟩) (by decide),
   C8_invariant_amended.2.1 [] [] ⟨some (lit "A"), some (lit "t"), true⟩ (lit "\x7d") []
      rfl (by decide),
   C8_invariant_amended.2.2 [] [] initSt (lit "model B \x7b") [lit "\x7d"] (lit "B")
      (by decide) (by decide)⟩

/-- C3 counterexample: a block that does contain an explicit, well-formed
table-mapping annotation line `@@map("legacy_tbl")` (first conjunct), but
whose lookahead first hits a line carrying the `@@map(` marker without an
extractable quoted name (`// @@map()`): the walker breaks there, never
takes `legacy_tbl`, and ends the header with a null current table name, so
subsequent column lookups do not use the annotated raw name. -/
theorem C3_masked_map_counterexample :
    extractMapName (lit "  @@map(\"legacy_tbl\")") = some (lit "legacy_tbl") ∧
    (step [] [] initSt (lit "model A \x7b")
        [lit "  // @@map()", lit "  @@map(\"legacy_tbl\")", lit "\x7d"]).1.table
      = none ∧
    (step [] [] initSt (lit "model A \x7b")
        [lit "  // @@map()", lit "  @@map(\"legacy_tbl\")", lit "\x7d"]).1.table
      ≠ some (lit "legacy_tbl") := by decide
